import Mathlib

/-!
Verification of the streaming response transcoder of the OpenAI → NVIDIA NIM
proxy (`server.js` and its variant `unnamed/part_001`).

The repository contains two variants of the streaming transcoder:
* `src/server.js` (lines 99–166): per-request `buffer`/`reasoningStarted`
  state, the reasoning/content merge state machine, a suppression guard
  `if (delta.content || delta.reasoning_content === undefined)`, and
  `delete delta.reasoning_content` executed only in the reasoning branch.
* `src/unnamed/part_001` (lines 68–120): same structure, but the rewritten
  content is computed into `output`, `delete delta.reasoning_content` is
  unconditional, and the suppression guard is `if (delta.content)`.

JavaScript strings are modelled as Lean `String`s; the built-in string
operations used by the code (`split('\n')`, `trim()`, `startsWith`,
`replace('data: ', '')`) are modelled by executable functions on the
character list of the string, so that every concrete run can be evaluated
by `decide`.  JSON values are modelled structurally: an upstream event is
an `Event` record holding exactly the fields the code reads or rewrites,
with `Option` for absent fields, and `JSON.parse` is an abstract decoder
parameter `dec : String → Option Event` (a `none` result models a thrown
`SyntaxError`).  JavaScript string truthiness (`''` is falsy) is modelled
by `strTruthy`/`optTruthy`.
-/

/-- ASCII whitespace predicate backing the model of JS `String.trim`. -/
def isWs (c : Char) : Bool := c = ' ' || c = '\t' || c = '\n' || c = '\r'

/-- Model of JS `String.prototype.trim` on the character list of a string:
whitespace is removed from both ends. -/
def trimChars (l : List Char) : List Char :=
  ((l.dropWhile isWs).reverse.dropWhile isWs).reverse

/-- Model of JS `String.prototype.startsWith`: does the first list start with
the second? -/
def startsWithChars : List Char → List Char → Bool
  | _, [] => true
  | [], _ :: _ => false
  | c :: cs, p :: ps => (c == p) && startsWithChars cs ps

/-- Helper for `splitNlChars`: prepend a character to the first piece of a
split result (used for every character that is not the separator). -/
def consHead (c : Char) : List (List Char) → List (List Char)
  | [] => [[c]]
  | l :: ls => (c :: l) :: ls

/-- Model of JS `String.prototype.split('\n')` on character lists: the result
always has one more piece than there are separators, so it is never empty,
and pieces never contain the separator. -/
def splitNlChars : List Char → List (List Char)
  | [] => [[]]
  | c :: cs => if c = '\n' then [] :: splitNlChars cs else consHead c (splitNlChars cs)

/-- Merge a pending fragment onto the head of a split result; used to state
how `splitNlChars` acts on an append. -/
def glueHead (p : List Char) : List (List Char) → List (List Char)
  | [] => [p]
  | l :: ls => (p ++ l) :: ls

/-- Last element of a list with a default, by structural recursion. -/
def lastD {α : Type} : List α → α → α
  | [], d => d
  | [a], _ => a
  | _ :: b :: bs, d => lastD (b :: bs) d

/-- Inverse of `splitNlChars`: re-interleave the separator. -/
def unsplitChars : List (List Char) → List Char
  | [] => []
  | [l] => l
  | l :: ls => l ++ '\n' :: unsplitChars ls

/-- JS `buffer.split('\n')` lifted to `String`. -/
def splitNl (s : String) : List String := (splitNlChars s.data).map String.mk

/-- One delivery of the `data` handler's reassembly step
(`buffer += chunk; const lines = buffer.split('\n'); buffer = lines.pop()`,
`server.js` lines 104–106 / `part_001` lines 72–74): returns the complete
lines in order and the retained (possibly incomplete) final fragment. -/
def feed (buffer chunk : String) : List String × String :=
  ((splitNl (buffer ++ chunk)).dropLast, lastD (splitNl (buffer ++ chunk)) "")

/-- A streamed chat-completion delta: the fields of `choices[0].delta` that
the transcoder reads or rewrites, plus `role` as a representative untouched
delta field.  `none` models an absent JSON field. -/
structure Delta where
  role : Option String
  content : Option String
  reasoning_content : Option String
deriving DecidableEq

/-- A decoded streamed event.  `delta` is `choices[0].delta`
(`none` models an event with no choices or no delta); the remaining fields
are the top-level fields the transcoder never touches. -/
structure Event where
  id : Option String
  object : Option String
  created : Option Nat
  model : Option String
  finish_reason : Option String
  delta : Option Delta
deriving DecidableEq

/-- JS truthiness of a string: the empty string is falsy. -/
def strTruthy (s : String) : Bool := !(s == "")

/-- JS truthiness of an optional string field: absent (`undefined`) and the
empty string are falsy. -/
def optTruthy : Option String → Bool
  | none => false
  | some s => strTruthy s

/-- The `SHOW_REASONING` toggle, `true` in both transcoder variants. -/
def SHOW_REASONING : Bool := true

/-- The delta rewrite of `server.js` lines 122–149: the body of
`if (delta) { ... }` up to but excluding the write guard.  Returns the
rewritten delta and the new `reasoningStarted` flag.  Note that
`delete delta.reasoning_content` is executed only inside the
`if (reasoning)` branch. -/
def serverRewrite (started : Bool) (d : Delta) : Delta × Bool :=
  if SHOW_REASONING then
    if optTruthy d.reasoning_content then
      if !started then
        ({ d with content := some ("<think>\n" ++ d.reasoning_content.getD ""), reasoning_content := none }, true)
      else
        ({ d with content := some (d.reasoning_content.getD ""), reasoning_content := none }, started)
    else if started && !(optTruthy d.reasoning_content) then
      ({ d with content := some ("</think>\n\n" ++ d.content.getD "") }, false)
    else (d, started)
  else
    if optTruthy d.reasoning_content then
      ({ d with content := some "", reasoning_content := none }, started)
    else (d, started)

/-- One event through the `server.js` transcoder (lines 119–155): rewrite the
delta, then apply the write guard
`if (delta.content || delta.reasoning_content === undefined)`.
`(none, s)` in the first component means nothing is written. -/
def transformServer (started : Bool) (e : Event) : Option Event × Bool :=
  match e.delta with
  | none => (none, started)
  | some d =>
    match serverRewrite started d with
    | (d2, s2) =>
      if optTruthy d2.content ∨ d2.reasoning_content = none then
        (some { e with delta := some d2 }, s2)
      else (none, s2)

/-- The content rewrite of `part_001` lines 93–106: the `output` string and
the new `reasoningStarted` flag. -/
def part1Rewrite (started : Bool) (d : Delta) : String × Bool :=
  if SHOW_REASONING && optTruthy d.reasoning_content then
    if !started then ("<think>\n" ++ d.reasoning_content.getD "", true)
    else (d.reasoning_content.getD "", started)
  else if started && !(optTruthy d.reasoning_content) then
    ("</think>\n\n" ++ d.content.getD "", false)
  else
    (d.content.getD "", started)

/-- One event through the `part_001` transcoder (lines 87–114):
`delta.content = output; delete delta.reasoning_content;` followed by the
write guard `if (delta.content)`. -/
def transformPart1 (started : Bool) (e : Event) : Option Event × Bool :=
  match e.delta with
  | none => (none, started)
  | some d =>
    match part1Rewrite started d with
    | (out, s2) =>
      if strTruthy out then
        (some { e with delta := some { d with content := some out, reasoning_content := none } }, s2)
      else (none, s2)

/-- A downstream write: either the termination sentinel frame or a rewritten
event frame. -/
inductive Out where
  | done : Out
  | event : Event → Out
deriving DecidableEq

/-- The bytes a write puts on the wire, for an abstract JSON serializer
`ser` standing for `JSON.stringify`. -/
def renderOut (ser : Event → String) : Out → String
  | Out.done => "data: [DONE]\n\n"
  | Out.event e => "data: " ++ ser e ++ "\n\n"

/-- Processing of one complete line (`server.js` lines 108–158 /
`part_001` lines 76–115), parametric in the JSON decoder `dec`
(`JSON.parse` plus extraction of `choices[0].delta`; `none` models a parse
failure, which the `try`/`catch` swallows) and in the per-event transform
`tr`.  Since the trimmed line starts with `"data: "`, JS
`replace('data: ', '')` (replace first occurrence) equals dropping the
six-character prefix. -/
def processLine (dec : String → Option Event) (tr : Bool → Event → Option Event × Bool)
    (started : Bool) (line : String) : List Out × Bool :=
  let t : List Char := trimChars line.data
  if startsWithChars t "data: ".data then
    if String.mk (t.drop 6) = "[DONE]" then ([Out.done], started)
    else
      match dec (String.mk (t.drop 6)) with
      | none => ([], started)
      | some e =>
        match tr started e with
        | (some e2, s2) => ([Out.event e2], s2)
        | (none, s2) => ([], s2)
  else ([], started)

/-- The `for (const line of lines)` loop: process a list of complete lines,
threading the `reasoningStarted` flag and concatenating the writes. -/
def processLines (dec : String → Option Event) (tr : Bool → Event → Option Event × Bool) :
    Bool → List String → List Out × Bool
  | s, [] => ([], s)
  | s, l :: ls =>
    match processLine dec tr s l with
    | (o, s2) =>
      match processLines dec tr s2 ls with
      | (os, s3) => (o ++ os, s3)

/-- One invocation of the `data` handler: reassemble lines from the chunk,
then run the line loop.  The per-request state is the pair
(`buffer`, `reasoningStarted`). -/
def handleChunk (dec : String → Option Event) (tr : Bool → Event → Option Event × Bool)
    (st : String × Bool) (chunk : String) : List Out × (String × Bool) :=
  match feed st.1 chunk with
  | (lines, buf2) =>
    match processLines dec tr st.2 lines with
    | (outs, s2) => (outs, (buf2, s2))

/-- Deliver a list of chunks to one transcoder instance, from a given state. -/
def runChunks (dec : String → Option Event) (tr : Bool → Event → Option Event × Bool) :
    (String × Bool) → List String → List Out × (String × Bool)
  | st, [] => ([], st)
  | st, c :: cs =>
    match handleChunk dec tr st c with
    | (o, st2) =>
      match runChunks dec tr st2 cs with
      | (os, st3) => (o ++ os, st3)

/-- A whole stream through the transcoder: initial state is an empty buffer
and `reasoningStarted = false`; the `end` handler
(`response.data.on('end', () => res.end())`, `server.js` line 162 /
`part_001` line 119) closes the response and writes nothing, so the writes
of the stream are exactly the writes of the chunk deliveries. -/
def runStream (dec : String → Option Event) (tr : Bool → Event → Option Event × Bool)
    (chunks : List String) : List Out :=
  (runChunks dec tr ("", false) chunks).1

/-- Modelled from the spec: the finalization the spec claims for stream end
(`flush(): called once when the upstream stream signals completion; returns
any remaining buffered content if non-empty, treated as a final line`).
This definition follows the spec's words; the repository's `end` handlers
contain no such flush, and this definition exists only to be compared with
`runStream`. -/
def runStreamWithFlush (dec : String → Option Event) (tr : Bool → Event → Option Event × Bool)
    (chunks : List String) : List Out :=
  match runChunks dec tr ("", false) chunks with
  | (outs, (buf, s)) =>
    if buf = "" then outs else outs ++ (processLine dec tr s buf).1

/-- The reassembler alone: feed every chunk in order from a given buffer,
collecting the complete lines and the final buffer. -/
def runFeeds : String → List String → List String × String
  | b, [] => ([], b)
  | b, c :: cs =>
    match feed b c with
    | (ls, b2) =>
      match runFeeds b2 cs with
      | (ls2, b3) => (ls ++ ls2, b3)

/-- Concatenation of a chunk list into the whole input stream. -/
def concatChunks : List String → String
  | [] => ""
  | c :: cs => c ++ concatChunks cs

/-- Rejoin complete lines, restoring the separator each line lost. -/
def joinLines : List String → String
  | [] => ""
  | l :: ls => l ++ "\n" ++ joinLines ls

/-- Two transcoder instances driven under an interleaving schedule: each
entry tags a chunk with the instance (`false` = first, `true` = second) it
is delivered to; each instance owns its own (`buffer`, `reasoningStarted`)
pair.  Returns the writes of each instance. -/
def runPair (dec : String → Option Event) (tr : Bool → Event → Option Event × Bool) :
    (String × Bool) × (String × Bool) → List (Bool × String) → List Out × List Out
  | _, [] => ([], [])
  | st, (tag, c) :: rest =>
    if tag then
      match handleChunk dec tr st.2 c with
      | (o, st2) =>
        match runPair dec tr (st.1, st2) rest with
        | (o1, o2) => (o1, o ++ o2)
    else
      match handleChunk dec tr st.1 c with
      | (o, st1) =>
        match runPair dec tr (st1, st.2) rest with
        | (o1, o2) => (o ++ o1, o2)

/-- The chunks a schedule delivers to the instance with the given tag. -/
def sideChunks (tag : Bool) (sched : List (Bool × String)) : List String :=
  (sched.filter (fun p => p.1 == tag)).map Prod.snd

/-- Contents observed downstream: the `content` texts of the events a
transform emits for a given input event sequence. -/
def contentsOf (tr : Bool → Event → Option Event × Bool) :
    Bool → List Event → List String
  | _, [] => []
  | s, e :: es =>
    match tr s e with
    | (some e2, s2) => ((e2.delta.bind Delta.content).getD "") :: contentsOf tr s2 es
    | (none, s2) => contentsOf tr s2 es

/-- The `content` field of the event a transform result emits, if any. -/
def outContent (r : Option Event × Bool) : Option String :=
  (r.1.bind Event.delta).bind Delta.content

/-- An event whose only populated field is a delta with the given `content`
and `reasoning_content`. -/
def mkEv (c rc : Option String) : Event :=
  { id := none, object := none, created := none, model := none,
    finish_reason := none, delta := some { role := none, content := c, reasoning_content := rc } }

/-- A concrete fully-populated event used by witnesses: both variants forward
it unchanged. -/
def eFull : Event :=
  Event.mk (some "chatcmpl-9") (some "chat.completion.chunk") (some 7) (some "m") (some "stop")
    (some (Delta.mk (some "assistant") (some "hi") none))

/-- Counterpart of `glueHead` on strings. -/
def glueHeadS (p : String) : List String → List String
  | [] => [p]
  | l :: ls => (p ++ l) :: ls

/-- Rejoin split pieces at the character level, restoring separators. -/
def joinLinesChars : List (List Char) → List Char
  | [] => []
  | l :: ls => l ++ '\n' :: joinLinesChars ls

lemma strTruthy_iff (s : String) : strTruthy s = true ↔ s ≠ "" := by
  simp [strTruthy]

lemma optTruthy_eq_true {o : Option String} (h : optTruthy o = true) :
    ∃ r, o = some r ∧ r ≠ "" := by
  cases o with
  | none => simp [optTruthy] at h
  | some s =>
    refine ⟨s, rfl, ?_⟩
    simp only [optTruthy] at h
    exact (strTruthy_iff s).mp h

lemma append_eq_empty {a b : String} (h : a ++ b = "") : a = "" := by
  have hd : a.data ++ b.data = ([] : List Char) := congrArg String.data h
  have ha : a.data = [] := (List.append_eq_nil.mp hd).1
  cases a with
  | mk l =>
    simp only at ha
    rw [ha]

lemma append_left_ne_empty {a : String} (b : String) (ha : a ≠ "") : a ++ b ≠ "" :=
  fun hc => ha (append_eq_empty hc)

lemma strTruthy_append {a : String} (b : String) (ha : strTruthy a = true) :
    strTruthy (a ++ b) = true :=
  (strTruthy_iff _).mpr (append_left_ne_empty b ((strTruthy_iff a).mp ha))

lemma serverRewrite_role (s : Bool) (d : Delta) : (serverRewrite s d).1.role = d.role := by
  simp only [serverRewrite]
  split_ifs <;> rfl

/-- C9: a successfully decoded event with no `choices[0].delta` (usage-only or
empty-choices event) produces no downstream write and leaves the
`reasoningStarted` flag unchanged in both transcoder variants: the whole
rewrite-and-write block sits inside `if (delta) { ... }` with no else branch,
so such events are dropped entirely rather than forwarded verbatim. -/
theorem deltaless_event_dropped (s : Bool) (e : Event) (h : e.delta = none) :
    transformServer s e = (none, s) ∧ transformPart1 s e = (none, s) := by
  constructor <;> simp [transformServer, transformPart1, h]

/-- Witness for `deltaless_event_dropped` at a concrete usage-only event. -/
theorem deltaless_event_dropped_witness :
    (Event.mk (some "chatcmpl-1") none (some 3) none none none).delta = none ∧
    transformServer true (Event.mk (some "chatcmpl-1") none (some 3) none none none)
      = (none, true) :=
  ⟨by decide, (deltaless_event_dropped true _ (by decide)).1⟩

/-- C10: a forwarded (non-sentinel) event agrees with the decoded input event
on every field other than `choices[0].delta.content` and
`choices[0].delta.reasoning_content`: the top-level `id`, `object`,
`created`, `model` and `finish_reason` fields and the delta's `role` are
unchanged, because both variants mutate only those two delta fields of the
parsed object before re-serializing it, and `JSON.stringify` is a function
of the mutated object.  Holds for both transcoder variants. -/
theorem frame_fields_preserved (s : Bool) (e e2 : Event) :
    ((transformServer s e).1 = some e2 →
      e2.id = e.id ∧ e2.object = e.object ∧ e2.created = e.created ∧ e2.model = e.model
        ∧ e2.finish_reason = e.finish_reason
        ∧ e2.delta.map Delta.role = e.delta.map Delta.role)
    ∧ ((transformPart1 s e).1 = some e2 →
      e2.id = e.id ∧ e2.object = e.object ∧ e2.created = e.created ∧ e2.model = e.model
        ∧ e2.finish_reason = e.finish_reason
        ∧ e2.delta.map Delta.role = e.delta.map Delta.role) := by
  constructor
  · intro h
    cases hd : e.delta with
    | none => simp [transformServer, hd] at h
    | some d =>
      rcases hsr : serverRewrite s d with ⟨d2, s2⟩
      simp only [transformServer, hd, hsr] at h
      split at h
      · injection h with h2
        subst h2
        refine ⟨rfl, rfl, rfl, rfl, rfl, ?_⟩
        have hr := serverRewrite_role s d
        rw [hsr] at hr
        have hr2 : d2.role = d.role := hr
        simp [hr2]
      · exact absurd h (by simp)
  · intro h
    cases hd : e.delta with
    | none => simp [transformPart1, hd] at h
    | some d =>
      rcases hpr : part1Rewrite s d with ⟨out, s2⟩
      simp only [transformPart1, hd, hpr] at h
      split at h
      · injection h with h2
        subst h2
        refine ⟨rfl, rfl, rfl, rfl, rfl, ?_⟩
        simp [hd]
      · exact absurd h (by simp)

/-- Witness for `frame_fields_preserved` at a concrete fully-populated event
that both variants forward unchanged. -/
theorem frame_fields_preserved_witness :
    (transformServer false eFull).1 = some eFull ∧
    (eFull.id = eFull.id ∧ eFull.object = eFull.object ∧ eFull.created = eFull.created
      ∧ eFull.model = eFull.model ∧ eFull.finish_reason = eFull.finish_reason
      ∧ eFull.delta.map Delta.role = eFull.delta.map Delta.role) :=
  ⟨by decide, (frame_fields_preserved false eFull eFull).1 (by decide)⟩

lemma serverRewrite_reasoning (s : Bool) (d : Delta) (h : optTruthy d.reasoning_content = true) :
    (serverRewrite s d).1.reasoning_content = none ∧ (serverRewrite s d).2 = true := by
  cases s <;> simp [serverRewrite, SHOW_REASONING, h]

/-- C3 counterexample: in the `server.js` variant, an event whose delta is
`{content: "X", reasoning_content: ""}` in state CLOSED is forwarded with
the `reasoning_content` field still present (as the empty string): the
`delete delta.reasoning_content` statement is only reached when `reasoning`
is truthy, and the write guard passes because `delta.content` is truthy.
This refutes the claim that `reasoning_content` is absent from every
serialized delta. -/
theorem reasoning_field_retained_cex :
    (transformServer false (mkEv (some "X") (some ""))).1 = some (mkEv (some "X") (some "")) ∧
    (((transformServer false (mkEv (some "X") (some ""))).1.bind Event.delta).bind
        Delta.reasoning_content) = some "" := by
  exact ⟨by decide, by decide⟩

/-- C3 amended: the `part_001` variant always removes `reasoning_content`
from the forwarded delta (the `delete` is unconditional); the `server.js`
variant removes it whenever it is truthy (non-empty) — a present-but-empty
`reasoning_content` survives into the forwarded delta there, as the
counterexample shows. -/
theorem reasoning_field_removal_amended (s : Bool) (e e2 : Event) (d d2 : Delta) :
    ((transformPart1 s e).1 = some e2 → e2.delta = some d2 → d2.reasoning_content = none)
    ∧ (e.delta = some d → optTruthy d.reasoning_content = true →
        (transformServer s e).1 = some e2 → e2.delta = some d2 → d2.reasoning_content = none) := by
  constructor
  · intro h hd2
    cases hd : e.delta with
    | none => simp [transformPart1, hd] at h
    | some d0 =>
      rcases hpr : part1Rewrite s d0 with ⟨out, s2⟩
      simp only [transformPart1, hd, hpr] at h
      split at h
      · injection h with h2
        subst h2
        injection hd2 with h3
        subst h3
        rfl
      · exact absurd h (by simp)
  · intro hd hrc h hd2
    rcases hsr : serverRewrite s d with ⟨d2', s2⟩
    have hrn : d2'.reasoning_content = none := by
      have hh := (serverRewrite_reasoning s d hrc).1
      rw [hsr] at hh
      exact hh
    simp only [transformServer, hd, hsr] at h
    split at h
    · injection h with h2
      subst h2
      injection hd2 with h3
      subst h3
      exact hrn
    · exact absurd h (by simp)

/-- Witness for `reasoning_field_removal_amended`: the `part_001` conjunct at
a concrete content-only event that is forwarded as itself. -/
theorem reasoning_field_removal_amended_witness :
    (transformPart1 false (mkEv (some "hi") none)).1 = some (mkEv (some "hi") none) ∧
    (Delta.mk none (some "hi") none).reasoning_content = none :=
  ⟨by decide,
    (reasoning_field_removal_amended false (mkEv (some "hi") none) (mkEv (some "hi") none)
      (Delta.mk none (some "hi") none) (Delta.mk none (some "hi") none)).1
      (by decide) (by decide)⟩

lemma strTruthy_empty : strTruthy "" = false := by decide

lemma part1Rewrite_state_of_empty (s : Bool) (d : Delta)
    (h : (part1Rewrite s d).1 = "") : (part1Rewrite s d).2 = s := by
  by_cases hrc : optTruthy d.reasoning_content = true
  · rcases optTruthy_eq_true hrc with ⟨r, hr, hne⟩
    have hrt : optTruthy (some r) = true := (strTruthy_iff r).mpr hne
    cases s
    · exfalso
      simp [part1Rewrite, SHOW_REASONING, hrc, hr, hrt] at h
      exact append_left_ne_empty r (by decide) h
    · exfalso
      simp [part1Rewrite, SHOW_REASONING, hrc, hr, hrt] at h
      exact hne h
  · simp only [Bool.not_eq_true] at hrc
    cases s
    · simp [part1Rewrite, hrc]
    · exfalso
      simp [part1Rewrite, hrc] at h
      exact append_left_ne_empty (d.content.getD "") (by decide) h

/-- C4 counterexample: in the `server.js` variant, a decoded event whose delta
has no `content` and no `reasoning_content` at all, arriving in state
CLOSED, is still forwarded: the rewrite leaves the delta unchanged (no
state transition, empty content), and the write guard
`delta.content || delta.reasoning_content === undefined` passes through its
second disjunct.  This refutes the claimed if-and-only-if suppression
rule, which demands suppression here. -/
theorem suppression_rule_cex :
    (transformServer false (mkEv none none)).1 = some (mkEv none none) ∧
    serverRewrite false (Delta.mk none none none) = (Delta.mk none none none, false) ∧
    optTruthy (Delta.mk none none none).content = false :=
  ⟨by decide, by decide, by decide⟩

/-- C4 amended: the claimed rule — forward the event unless the rewritten
content is empty and no state transition occurred — holds exactly for the
`part_001` variant (whose guard `if (delta.content)` is equivalent to it
because transitions always produce non-empty content).  The `server.js`
variant instead forwards whenever the rewritten delta's `content` is truthy
or its `reasoning_content` is absent, so an event with empty content and no
transition is still forwarded there whenever `reasoning_content` is
`undefined`. -/
theorem suppression_rule_amended (s : Bool) (e : Event) (d : Delta) (h : e.delta = some d) :
    ((transformPart1 s e).1 ≠ none ↔
      ¬ ((part1Rewrite s d).1 = "" ∧ (part1Rewrite s d).2 = s))
    ∧ ((transformServer s e).1 ≠ none ↔
      (optTruthy (serverRewrite s d).1.content = true
        ∨ (serverRewrite s d).1.reasoning_content = none)) := by
  constructor
  · rcases hpr : part1Rewrite s d with ⟨out, s2⟩
    by_cases ho : strTruthy out = true
    · simp only [transformPart1, h, hpr, ho, if_true]
      constructor
      · intro _ hc
        exact (strTruthy_iff out).mp ho hc.1
      · intro _
        simp
    · have ho' : out = "" := by
        by_contra hne
        exact ho ((strTruthy_iff out).mpr hne)
      have hs2 : s2 = s := by
        have hh := part1Rewrite_state_of_empty s d (by rw [hpr]; exact ho')
        rw [hpr] at hh
        exact hh
      simp only [Bool.not_eq_true] at ho
      simp [transformPart1, h, hpr, ho, ho', hs2, strTruthy_empty]
  · rcases hsr : serverRewrite s d with ⟨d2, s2⟩
    by_cases hg : optTruthy d2.content = true ∨ d2.reasoning_content = none
    · simp [transformServer, h, hsr, hg]
    · simp [transformServer, h, hsr, hg]

/-- Witness for `suppression_rule_amended`: the `part_001` conjunct at the
OPEN-to-CLOSED transition with empty trailing content, which is forwarded
because it carries the closing marker. -/
theorem suppression_rule_amended_witness :
    (mkEv none none).delta = some (Delta.mk none none none) ∧
    (transformPart1 true (mkEv none none)).1 ≠ none :=
  ⟨by decide,
    (suppression_rule_amended true (mkEv none none) (Delta.mk none none none)
        (by decide)).1.mpr (by decide)⟩

/-- C1: the reasoning/content merge follows the transition table in both
transcoder variants.  With `R` the reasoning text (present and non-empty,
i.e. truthy) and `C` the original content: in CLOSED with `R` the emitted
content is `"<think>\n" ++ R` and the state becomes OPEN; in OPEN with `R`
the emitted content is `R` and the state stays OPEN; in OPEN without
reasoning the emitted content is `"</think>\n\n" ++ C` and the state
becomes CLOSED; in CLOSED without reasoning the state stays CLOSED and any
emitted event carries the original content text unchanged.  In particular
the delta sequence `[{reasoning:"A"}, {reasoning:"B"}, {content:"C"}]`
produces exactly the content sequence
`["<think>\nA", "B", "</think>\n\nC"]`.  (CLOSED is `started = false`,
OPEN is `started = true`.) -/
theorem merge_state_machine_correct (e : Event) (d : Delta) (h : e.delta = some d) :
    (optTruthy d.reasoning_content = true →
      (outContent (transformServer false e) = some ("<think>\n" ++ d.reasoning_content.getD "")
          ∧ (transformServer false e).2 = true)
        ∧ (outContent (transformPart1 false e) = some ("<think>\n" ++ d.reasoning_content.getD "")
          ∧ (transformPart1 false e).2 = true)
        ∧ (outContent (transformServer true e) = some (d.reasoning_content.getD "")
          ∧ (transformServer true e).2 = true)
        ∧ (outContent (transformPart1 true e) = some (d.reasoning_content.getD "")
          ∧ (transformPart1 true e).2 = true))
    ∧ (optTruthy d.reasoning_content = false →
      (outContent (transformServer true e) = some ("</think>\n\n" ++ d.content.getD "")
          ∧ (transformServer true e).2 = false)
        ∧ (outContent (transformPart1 true e) = some ("</think>\n\n" ++ d.content.getD "")
          ∧ (transformPart1 true e).2 = false)
        ∧ ((transformServer false e).2 = false
          ∧ ∀ e2, (transformServer false e).1 = some e2 →
              (e2.delta.bind Delta.content).getD "" = d.content.getD "")
        ∧ ((transformPart1 false e).2 = false
          ∧ ∀ e2, (transformPart1 false e).1 = some e2 →
              (e2.delta.bind Delta.content).getD "" = d.content.getD ""))
    ∧ contentsOf transformServer false
        [mkEv none (some "A"), mkEv none (some "B"), mkEv (some "C") none]
        = ["<think>\nA", "B", "</think>\n\nC"]
    ∧ contentsOf transformPart1 false
        [mkEv none (some "A"), mkEv none (some "B"), mkEv (some "C") none]
        = ["<think>\nA", "B", "</think>\n\nC"] := by
  refine ⟨?_, ?_, by decide, by decide⟩
  · intro hrc
    rcases optTruthy_eq_true hrc with ⟨r, hr, hne⟩
    have hrt : optTruthy (some r) = true := (strTruthy_iff r).mpr hne
    have hrts : strTruthy r = true := (strTruthy_iff r).mpr hne
    have ht1 : strTruthy ("<think>\n" ++ r) = true := strTruthy_append r (by decide)
    have hg1 : optTruthy (some ("<think>\n" ++ r)) = true := ht1
    refine ⟨⟨?_, ?_⟩, ⟨?_, ?_⟩, ⟨?_, ?_⟩, ⟨?_, ?_⟩⟩ <;>
      simp [outContent, transformServer, transformPart1, serverRewrite, part1Rewrite,
        SHOW_REASONING, h, hr, hrt, hg1, ht1, hrts]
  · intro hrc
    have ht2 : strTruthy ("</think>\n\n" ++ d.content.getD "") = true :=
      strTruthy_append _ (by decide)
    have hg2 : optTruthy (some ("</think>\n\n" ++ d.content.getD "")) = true := ht2
    have hsid : serverRewrite false d = (d, false) := by
      simp [serverRewrite, SHOW_REASONING, hrc]
    have hpid : part1Rewrite false d = (d.content.getD "", false) := by
      simp [part1Rewrite, SHOW_REASONING, hrc]
    refine ⟨⟨?_, ?_⟩, ⟨?_, ?_⟩, ⟨?_, ?_⟩, ⟨?_, ?_⟩⟩
    · simp [outContent, transformServer, serverRewrite, SHOW_REASONING, h, hrc, hg2]
    · simp [transformServer, serverRewrite, SHOW_REASONING, h, hrc, hg2]
    · simp [outContent, transformPart1, part1Rewrite, SHOW_REASONING, h, hrc, ht2]
    · simp [transformPart1, part1Rewrite, SHOW_REASONING, h, hrc, ht2]
    · simp only [transformServer, h, hsid]
      split <;> rfl
    · intro e2 he2
      simp only [transformServer, h, hsid] at he2
      split at he2
      · injection he2 with h2
        subst h2
        rfl
      · exact absurd he2 (by simp)
    · simp only [transformPart1, h, hpid]
      split <;> rfl
    · intro e2 he2
      simp only [transformPart1, h, hpid] at he2
      split at he2
      · injection he2 with h2
        subst h2
        simp
      · exact absurd he2 (by simp)

/-- Witness for `merge_state_machine_correct`: the CLOSED-with-reasoning row
at the concrete delta `{reasoning_content: "R"}`. -/
theorem merge_state_machine_correct_witness :
    (mkEv none (some "R")).delta = some (Delta.mk none none (some "R")) ∧
    optTruthy (Delta.mk none none (some "R")).reasoning_content = true ∧
    outContent (transformServer false (mkEv none (some "R")))
      = some ("<think>\n" ++ (Delta.mk none none (some "R")).reasoning_content.getD "") :=
  ⟨by decide, by decide,
    (((merge_state_machine_correct (mkEv none (some "R")) (Delta.mk none none (some "R"))
        (by decide)).1 (by decide)).1).1⟩

lemma processLines_cons (dec : String → Option Event) (tr : Bool → Event → Option Event × Bool)
    (s : Bool) (l : String) (ls : List String) :
    processLines dec tr s (l :: ls)
      = ((processLine dec tr s l).1 ++ (processLines dec tr (processLine dec tr s l).2 ls).1,
         (processLines dec tr (processLine dec tr s l).2 ls).2) := rfl

/-- C5: a line whose trimmed form carries the event prefix and whose payload
is the termination sentinel is answered by writing the frame
`data: [DONE]\n\n` verbatim, in every transcoder state (including OPEN —
no closing marker is injected), with the state unchanged.  The result does
not depend on the decoder `dec` or the transform `tr`, which expresses
that the line bypasses JSON decode and the state machine entirely. -/
theorem done_sentinel_passthrough (ser : Event → String) (dec : String → Option Event)
    (tr : Bool → Event → Option Event × Bool) (s : Bool) (line : String)
    (h1 : startsWithChars (trimChars line.data) "data: ".data = true)
    (h2 : String.mk ((trimChars line.data).drop 6) = "[DONE]") :
    processLine dec tr s line = ([Out.done], s) ∧
    (processLine dec tr s line).1.map (renderOut ser) = ["data: [DONE]\n\n"] := by
  have hp : processLine dec tr s line = ([Out.done], s) := by
    simp [processLine, h1, h2]
  refine ⟨hp, ?_⟩
  rw [hp]
  rfl

/-- Witness for `done_sentinel_passthrough` at the line `data: [DONE]` in the
OPEN state. -/
theorem done_sentinel_passthrough_witness :
    startsWithChars (trimChars ("data: [DONE]").data) "data: ".data = true ∧
    processLine (fun _ => none) transformServer true "data: [DONE]" = ([Out.done], true) :=
  ⟨by decide,
    (done_sentinel_passthrough (fun _ => "") (fun _ => none) transformServer true "data: [DONE]"
      (by decide) (by decide)).1⟩

/-- C6: a line carrying the event prefix whose payload fails JSON decoding
(the payload is not the sentinel, so it reaches the decoder, and the
decoder rejects it) produces no write and leaves the `reasoningStarted`
state unchanged — the `try`/`catch` swallows the error, so nothing is
raised — and deleting the malformed line from any line sequence does not
change the processing of the remaining lines.  The reassembler's buffer is
untouched: line processing happens strictly after the buffer update and
never writes to it. -/
theorem malformed_payload_resilience (dec : String → Option Event)
    (tr : Bool → Event → Option Event × Bool) (s s0 : Bool) (line : String)
    (pre post : List String)
    (h1 : startsWithChars (trimChars line.data) "data: ".data = true)
    (h2 : String.mk ((trimChars line.data).drop 6) ≠ "[DONE]")
    (h3 : dec (String.mk ((trimChars line.data).drop 6)) = none) :
    processLine dec tr s line = ([], s) ∧
    processLines dec tr s0 (pre ++ line :: post) = processLines dec tr s0 (pre ++ post) := by
  have hp : ∀ s', processLine dec tr s' line = ([], s') := by
    intro s'
    simp [processLine, h1, h2, h3]
  refine ⟨hp s, ?_⟩
  induction pre generalizing s0 with
  | nil =>
    simp only [List.nil_append]
    rw [processLines_cons, hp s0]
    simp
  | cons a as ih =>
    simp only [List.cons_append]
    rw [processLines_cons, processLines_cons, ih]

/-- Witness for `malformed_payload_resilience`: the malformed line
`data: {not valid json` (brace written as an escape) between a sentinel
line and the end of the batch, with a decoder rejecting every payload. -/
theorem malformed_payload_resilience_witness :
    processLine (fun _ => none) transformServer false "data: \x7bnot valid json" = ([], false) ∧
    processLines (fun _ => none) transformServer false
        (["data: [DONE]"] ++ "data: \x7bnot valid json" :: [])
      = processLines (fun _ => none) transformServer false (["data: [DONE]"] ++ []) :=
  malformed_payload_resilience (fun _ => none) transformServer false false
    "data: \x7bnot valid json" ["data: [DONE]"] [] (by decide) (by decide) (by decide)

lemma splitNlChars_ne_nil : ∀ l : List Char, splitNlChars l ≠ []
  | [] => by simp [splitNlChars]
  | c :: cs => by
    simp only [splitNlChars]
    split
    · simp
    · cases hsp : splitNlChars cs <;> simp [consHead]

lemma lastD_mem {α : Type} : ∀ (l : List α) (d : α), l ≠ [] → lastD l d ∈ l
  | [], _, h => absurd rfl h
  | [a], d, _ => by simp [lastD]
  | a :: b :: bs, d, _ => by
    have := lastD_mem (b :: bs) d (by simp)
    simp only [lastD]
    exact List.mem_cons_of_mem a this

lemma lastD_append {α : Type} (ys : List α) (d : α) (h : ys ≠ []) :
    ∀ xs : List α, lastD (xs ++ ys) d = lastD ys d := by
  intro xs
  induction xs with
  | nil => rfl
  | cons a as ih =>
    cases has : as ++ ys with
    | nil => exact absurd (List.append_eq_nil.mp has).2 h
    | cons z zs =>
      show lastD (a :: (as ++ ys)) d = lastD ys d
      rw [has]
      show lastD (z :: zs) d = lastD ys d
      rw [← has]
      exact ih

lemma splitNlChars_append (a b : List Char) :
    splitNlChars (a ++ b)
      = (splitNlChars a).dropLast
          ++ glueHead (lastD (splitNlChars a) []) (splitNlChars b) := by
  induction a with
  | nil =>
    simp only [List.nil_append, splitNlChars, List.dropLast_single, lastD]
    cases hsb : splitNlChars b with
    | nil => exact absurd hsb (splitNlChars_ne_nil b)
    | cons m ms => simp [glueHead]
  | cons c cs ih =>
    simp only [List.cons_append, splitNlChars, List.append_eq]
    split
    · rw [ih]
      cases hcs : splitNlChars cs with
      | nil => exact absurd hcs (splitNlChars_ne_nil cs)
      | cons m ms =>
        cases ms with
        | nil =>
          cases hsb : splitNlChars b with
          | nil => exact absurd hsb (splitNlChars_ne_nil b)
          | cons n ns => simp [glueHead, lastD]
        | cons m2 ms2 => simp [lastD]
    · rw [ih]
      cases hcs : splitNlChars cs with
      | nil => exact absurd hcs (splitNlChars_ne_nil cs)
      | cons m ms =>
        cases ms with
        | nil =>
          cases hsb : splitNlChars b with
          | nil => exact absurd hsb (splitNlChars_ne_nil b)
          | cons n ns => simp [consHead, glueHead, lastD]
        | cons m2 ms2 => simp [consHead, glueHead, lastD]

lemma splitNlChars_no_nl : ∀ l : List Char, ∀ p ∈ splitNlChars l, '\n' ∉ p
  | [], p, hp => by
    simp [splitNlChars] at hp
    simp [hp]
  | c :: cs, p, hp => by
    simp only [splitNlChars] at hp
    split at hp
    · rcases List.mem_cons.mp hp with h1 | h2
      · simp [h1]
      · exact splitNlChars_no_nl cs p h2
    · rename_i hc
      cases hcs : splitNlChars cs with
      | nil => exact absurd hcs (splitNlChars_ne_nil cs)
      | cons m ms =>
        rw [hcs] at hp
        simp only [consHead] at hp
        rcases List.mem_cons.mp hp with h1 | h2
        · subst h1
          intro hmem
          rcases List.mem_cons.mp hmem with h3 | h4
          · exact hc h3.symm
          · exact splitNlChars_no_nl cs m (by rw [hcs]; exact List.mem_cons_self m ms) h4
        · exact splitNlChars_no_nl cs p (by rw [hcs]; exact List.mem_cons_of_mem m h2)

lemma splitNlChars_eq_single : ∀ l : List Char, '\n' ∉ l → splitNlChars l = [l]
  | [], _ => rfl
  | c :: cs, h => by
    have hc : ¬ (c = '\n') := fun hcc => h (by rw [hcc]; exact List.mem_cons_self _ _)
    have hcs : '\n' ∉ cs := fun hm => h (List.mem_cons_of_mem c hm)
    simp only [splitNlChars, if_neg hc, splitNlChars_eq_single cs hcs, consHead]

lemma unsplit_splitNlChars : ∀ l : List Char, unsplitChars (splitNlChars l) = l
  | [] => rfl
  | c :: cs => by
    have ih := unsplit_splitNlChars cs
    simp only [splitNlChars]
    split
    · rename_i hc
      cases hcs : splitNlChars cs with
      | nil => exact absurd hcs (splitNlChars_ne_nil cs)
      | cons m ms =>
        rw [hcs] at ih
        subst hc
        show unsplitChars ([] :: m :: ms) = '\n' :: cs
        simp only [unsplitChars, List.nil_append]
        rw [ih]
    · rename_i hc
      cases hcs : splitNlChars cs with
      | nil => exact absurd hcs (splitNlChars_ne_nil cs)
      | cons m ms =>
        rw [hcs] at ih
        cases ms with
        | nil =>
          simp only [consHead, unsplitChars] at ih ⊢
          rw [ih]
        | cons m2 ms2 =>
          simp only [consHead, unsplitChars, List.cons_append] at ih ⊢
          rw [ih]

lemma strData_ext {a b : String} (h : a.data = b.data) : a = b := by
  cases a with
  | mk l =>
    cases b with
    | mk m =>
      simp only at h
      rw [h]

lemma str_mk_nil : String.mk [] = "" := rfl

lemma str_append_assoc (a b c : String) : (a ++ b) ++ c = a ++ (b ++ c) :=
  strData_ext (List.append_assoc a.data b.data c.data)

lemma str_append_empty (a : String) : a ++ "" = a :=
  strData_ext (List.append_nil a.data)

lemma glueHeadS_ne_nil (p : String) (xs : List String) : glueHeadS p xs ≠ [] := by
  cases xs <;> simp [glueHeadS]

lemma map_glueHead (p : List Char) (xs : List (List Char)) :
    (glueHead p xs).map String.mk = glueHeadS (String.mk p) (xs.map String.mk) := by
  cases xs with
  | nil => rfl
  | cons l ls => rfl

lemma map_lastD {α β : Type} (f : α → β) (d : α) :
    ∀ l : List α, lastD (l.map f) (f d) = f (lastD l d)
  | [] => rfl
  | [a] => rfl
  | a :: b :: bs => by
    simp only [List.map_cons, lastD]
    exact map_lastD f d (b :: bs)

lemma splitNl_ne_nil (s : String) : splitNl s ≠ [] := by
  intro hc
  exact splitNlChars_ne_nil s.data (List.map_eq_nil_iff.mp hc)

lemma splitNl_append (a b : String) :
    splitNl (a ++ b) = (splitNl a).dropLast ++ glueHeadS (lastD (splitNl a) "") (splitNl b) := by
  have hd : (a ++ b).data = a.data ++ b.data := rfl
  simp only [splitNl, hd, splitNlChars_append, List.map_append]
  rw [map_glueHead]
  congr 1
  · exact List.map_dropLast _ _
  · congr 1
    rw [← str_mk_nil, map_lastD]

lemma splitNl_single (s : String) (h : '\n' ∉ s.data) : splitNl s = [s] := by
  simp only [splitNl, splitNlChars_eq_single s.data h, List.map_cons, List.map_nil]

lemma feed_buf_no_nl (b c : String) : '\n' ∉ (feed b c).2.data := by
  show '\n' ∉ (lastD (splitNl (b ++ c)) "").data
  have h1 : lastD (splitNl (b ++ c)) "" = String.mk (lastD (splitNlChars (b ++ c).data) []) := by
    simp only [splitNl]
    rw [← str_mk_nil, map_lastD]
  rw [h1]
  exact splitNlChars_no_nl (b ++ c).data _
    (lastD_mem _ _ (splitNlChars_ne_nil (b ++ c).data))

lemma runFeeds_cons (b c : String) (cs : List String) :
    runFeeds b (c :: cs)
      = ((feed b c).1 ++ (runFeeds (feed b c).2 cs).1, (runFeeds (feed b c).2 cs).2) := rfl

lemma runFeeds_eq (cs : List String) :
    ∀ b : String, '\n' ∉ b.data → runFeeds b cs = feed b (concatChunks cs) := by
  induction cs with
  | nil =>
    intro b hb
    show ([], b) = feed b (concatChunks [])
    have h0 : b ++ concatChunks [] = b := str_append_empty b
    simp only [feed, h0, splitNl_single b hb, List.dropLast_single, lastD]
  | cons c cs ih =>
    intro b hb
    rw [runFeeds_cons, ih (feed b c).2 (feed_buf_no_nl b c)]
    show ((splitNl (b ++ c)).dropLast ++ (feed (feed b c).2 (concatChunks cs)).1,
          (feed (feed b c).2 (concatChunks cs)).2)
        = feed b (concatChunks (c :: cs))
    have hb2 : splitNl ((feed b c).2) = [(feed b c).2] :=
      splitNl_single _ (feed_buf_no_nl b c)
    have hsplit : splitNl (b ++ concatChunks (c :: cs))
        = (splitNl (b ++ c)).dropLast ++ splitNl ((feed b c).2 ++ concatChunks cs) := by
      show splitNl (b ++ (c ++ concatChunks cs)) = _
      rw [← str_append_assoc, splitNl_append (b ++ c) (concatChunks cs),
        splitNl_append ((feed b c).2) (concatChunks cs), hb2]
      simp only [List.dropLast_single, List.nil_append, lastD]
      rfl
    have hne : splitNl ((feed b c).2 ++ concatChunks cs) ≠ [] :=
      splitNl_ne_nil _
    show ((splitNl (b ++ c)).dropLast ++ (splitNl ((feed b c).2 ++ concatChunks cs)).dropLast,
          lastD (splitNl ((feed b c).2 ++ concatChunks cs)) "")
        = ((splitNl (b ++ concatChunks (c :: cs))).dropLast,
           lastD (splitNl (b ++ concatChunks (c :: cs))) "")
    rw [hsplit, List.dropLast_append_of_ne_nil _ hne, lastD_append _ _ hne _]

/-- C2: split-boundary invariance of the line reassembler.  Feeding any
partition of the input byte stream chunk by chunk through
`buffer += chunk; lines = buffer.split('\n'); buffer = lines.pop()`
produces exactly the complete lines (and final retained fragment) obtained
by feeding the whole stream as one chunk — so chunk boundaries, including
ones that fall immediately before or after a delimiter, never drop,
duplicate or reorder lines. -/
theorem split_boundary_invariance (chunks : List String) :
    runFeeds "" chunks = feed "" (concatChunks chunks) :=
  runFeeds_eq chunks "" (by decide)

lemma str_data_append (a b : String) : (a ++ b).data = a.data ++ b.data := rfl

lemma str_data_nl : ("\n" : String).data = ['\n'] := rfl

lemma str_data_mk (l : List Char) : (String.mk l).data = l := rfl

lemma joinLines_data : ∀ xs : List (List Char), (joinLines (xs.map String.mk)).data = joinLinesChars xs
  | [] => rfl
  | x :: xs => by
    have ih := joinLines_data xs
    simp only [List.map_cons, joinLines, joinLinesChars, str_data_append, str_data_nl,
      str_data_mk, ih, List.cons_append, List.nil_append, List.append_assoc]

lemma join_drop_chars : ∀ parts : List (List Char), parts ≠ [] →
    joinLinesChars parts.dropLast ++ lastD parts [] = unsplitChars parts
  | [], h => absurd rfl h
  | [p], _ => by simp [joinLinesChars, lastD, unsplitChars, List.dropLast_single]
  | p :: q :: rest, _ => by
    have ih := join_drop_chars (q :: rest) (by simp)
    show (p ++ '\n' :: joinLinesChars ((q :: rest).dropLast)) ++ lastD (q :: rest) []
        = p ++ '\n' :: unsplitChars (q :: rest)
    rw [List.append_assoc]
    show p ++ '\n' :: (joinLinesChars ((q :: rest).dropLast) ++ lastD (q :: rest) [])
        = p ++ '\n' :: unsplitChars (q :: rest)
    rw [ih]

lemma feed_reconstruct (b c : String) :
    joinLines (feed b c).1 ++ (feed b c).2 = b ++ c := by
  have h1 : (feed b c).1 = ((splitNlChars (b ++ c).data).dropLast).map String.mk := by
    show (splitNl (b ++ c)).dropLast = _
    simp only [splitNl]
    exact (List.map_dropLast _ _).symm
  have h2 : (feed b c).2 = String.mk (lastD (splitNlChars (b ++ c).data) []) := by
    show lastD (splitNl (b ++ c)) "" = _
    simp only [splitNl]
    rw [← str_mk_nil, map_lastD]
  apply strData_ext
  rw [h1, h2]
  show (joinLines (((splitNlChars (b ++ c).data).dropLast).map String.mk)).data
      ++ lastD (splitNlChars (b ++ c).data) [] = (b ++ c).data
  rw [joinLines_data, join_drop_chars _ (splitNlChars_ne_nil _), unsplit_splitNlChars]

lemma runChunks_cons (dec : String → Option Event) (tr : Bool → Event → Option Event × Bool)
    (st : String × Bool) (c : String) (cs : List String) :
    runChunks dec tr st (c :: cs)
      = ((handleChunk dec tr st c).1 ++ (runChunks dec tr (handleChunk dec tr st c).2 cs).1,
         (runChunks dec tr (handleChunk dec tr st c).2 cs).2) := rfl

lemma handleChunk_snd (dec : String → Option Event) (tr : Bool → Event → Option Event × Bool)
    (st : String × Bool) (c : String) :
    (handleChunk dec tr st c).2
      = ((feed st.1 c).2, (processLines dec tr st.2 (feed st.1 c).1).2) := rfl

lemma runChunks_buf_no_nl (dec : String → Option Event) (tr : Bool → Event → Option Event × Bool) :
    ∀ (cs : List String) (st : String × Bool), '\n' ∉ st.1.data →
      '\n' ∉ ((runChunks dec tr st cs).2).1.data
  | [], _, h => h
  | c :: cs, st, _ => by
    rw [runChunks_cons]
    exact runChunks_buf_no_nl dec tr cs _
      (by rw [handleChunk_snd]; exact feed_buf_no_nl st.1 c)

lemma handleChunk_single (dec : String → Option Event) (tr : Bool → Event → Option Event × Bool)
    (b c : String) (s : Bool) (hb : '\n' ∉ b.data) (hc : '\n' ∉ c.data) :
    handleChunk dec tr (b, s) c = ([], (b ++ c, s)) := by
  have hbc : '\n' ∉ (b ++ c).data := by
    intro hm
    rcases List.mem_append.mp hm with h | h
    exacts [hb h, hc h]
  have hf : feed b c = ([], b ++ c) := by
    simp only [feed, splitNl_single _ hbc, List.dropLast_single, lastD]
  simp only [handleChunk, hf, processLines]

lemma runChunks_append (dec : String → Option Event) (tr : Bool → Event → Option Event × Bool) :
    ∀ (xs ys : List String) (st : String × Bool),
      runChunks dec tr st (xs ++ ys)
        = ((runChunks dec tr st xs).1 ++ (runChunks dec tr (runChunks dec tr st xs).2 ys).1,
           (runChunks dec tr (runChunks dec tr st xs).2 ys).2)
  | [], ys, st => by simp [runChunks]
  | x :: xs, ys, st => by
    simp only [List.cons_append, runChunks_cons]
    rw [runChunks_append dec tr xs ys _]
    simp [List.append_assoc]

/-- C7 counterexample: the stream whose single chunk is the unterminated line
`data: [DONE]` (no trailing line break).  The code's `end` handler is
`() => res.end()` and performs no flush, so nothing at all is written; had
the remaining buffered fragment been flushed and processed as a final line
— as the claim states — the sentinel frame would have been emitted.  The
claimed finalization therefore does not match the code. -/
theorem no_flush_at_end_cex :
    runStream (fun _ => none) transformServer ["data: [DONE]"] = [] ∧
    runStreamWithFlush (fun _ => none) transformServer ["data: [DONE]"] = [Out.done] ∧
    ([] : List Out) ≠ [Out.done] :=
  ⟨by decide, by decide, by decide⟩

/-- C7 amended: there is no flush at stream end — the `end` handler only
closes the downstream response, so a final unterminated fragment is
discarded unprocessed: appending a chunk with no line break to any stream
leaves the output unchanged.  The reassembler itself neither loses nor
duplicates content: rejoining the lines produced by the `feed` calls (each
with its separator restored) and appending the final buffer reconstructs
the entire input exactly. -/
theorem flush_behavior_amended (chunks : List String) (dec : String → Option Event)
    (tr : Bool → Event → Option Event × Bool) (c : String) (hc : '\n' ∉ c.data) :
    joinLines (runFeeds "" chunks).1 ++ (runFeeds "" chunks).2 = concatChunks chunks
    ∧ runStream dec tr (chunks ++ [c]) = runStream dec tr chunks := by
  constructor
  · rw [runFeeds_eq chunks "" (by decide), feed_reconstruct]
    exact strData_ext rfl
  · show (runChunks dec tr ("", false) (chunks ++ [c])).1
        = (runChunks dec tr ("", false) chunks).1
    rw [runChunks_append]
    have hb : '\n' ∉ ((runChunks dec tr ("", false) chunks).2).1.data :=
      runChunks_buf_no_nl dec tr chunks ("", false) (by decide)
    rcases hst : (runChunks dec tr ("", false) chunks).2 with ⟨b, s⟩
    rw [hst] at hb
    have h1 : runChunks dec tr (b, s) [c] = ([], (b ++ c, s)) := by
      rw [runChunks_cons, handleChunk_single dec tr b c s hb hc]
      rfl
    rw [h1]
    simp

/-- Witness for `flush_behavior_amended`: appending the unterminated chunk
`data: [DONE]` to a one-chunk stream changes nothing. -/
theorem flush_behavior_amended_witness :
    ('\n' ∉ "data: [DONE]".data) ∧
    runStream (fun _ => none) transformServer (["x\n"] ++ ["data: [DONE]"])
      = runStream (fun _ => none) transformServer ["x\n"] :=
  ⟨by decide,
    (flush_behavior_amended ["x\n"] (fun _ => none) transformServer "data: [DONE]"
      (by decide)).2⟩

/-- C8: concurrency isolation.  Two transcoder instances driven under any
interleaving schedule each produce exactly the output they would produce
when driven alone on their own chunk subsequence, from their own initial
state: each in-flight request owns its own `buffer` and `reasoningStarted`
(both are local variables of the request handler closure), so neither
instance can observe or modify the other's state. -/
theorem instance_isolation (dec : String → Option Event)
    (tr : Bool → Event → Option Event × Bool) (st1 st2 : String × Bool)
    (sched : List (Bool × String)) :
    (runPair dec tr (st1, st2) sched).1 = (runChunks dec tr st1 (sideChunks false sched)).1
    ∧ (runPair dec tr (st1, st2) sched).2 = (runChunks dec tr st2 (sideChunks true sched)).1 := by
  induction sched generalizing st1 st2 with
  | nil => exact ⟨rfl, rfl⟩
  | cons p rest ih =>
    rcases p with ⟨tag, c⟩
    cases tag
    · rcases hh : handleChunk dec tr st1 c with ⟨o, st1x⟩
      have ihh := ih st1x st2
      have hside : sideChunks false ((false, c) :: rest) = c :: sideChunks false rest := rfl
      have hside2 : sideChunks true ((false, c) :: rest) = sideChunks true rest := rfl
      constructor
      · show (runPair dec tr (st1, st2) ((false, c) :: rest)).1 = _
        rw [hside, runChunks_cons, hh]
        simp only [runPair, hh]
        rw [ihh.1]
        simp
      · show (runPair dec tr (st1, st2) ((false, c) :: rest)).2 = _
        rw [hside2]
        simp only [runPair, hh]
        rw [ihh.2]
        simp
    · rcases hh : handleChunk dec tr st2 c with ⟨o, st2x⟩
      have ihh := ih st1 st2x
      have hside : sideChunks true ((true, c) :: rest) = c :: sideChunks true rest := rfl
      have hside2 : sideChunks false ((true, c) :: rest) = sideChunks false rest := rfl
      constructor
      · show (runPair dec tr (st1, st2) ((true, c) :: rest)).1 = _
        rw [hside2]
        simp only [runPair, hh]
        rw [ihh.1]
        simp
      · show (runPair dec tr (st1, st2) ((true, c) :: rest)).2 = _
        rw [hside, runChunks_cons, hh]
        simp only [runPair, hh]
        rw [ihh.2]
        simp
